import Mathlib

/-!
Shallow embedding of the movement library (src/src/lib.rs): a Watch value
type holding a start time, an offset, and a meridiem display flag, with a
time-string parser, two formatters, day-difference annotation, arithmetic
operators, and a Display implementation.

Strings are modelled as lists of characters.  Rust i64 arithmetic is
modelled on unbounded Int; Rust / and % (which truncate toward zero) are
modelled by Int.tdiv and Int.tmod.  Rust i64::from_str is modelled by
parseI64 (optional sign, one or more ASCII digits, i64 range check).
-/

/-- Model of a Rust i64 minimum value. -/
def i64Min : Int := -9223372036854775808

/-- Model of a Rust i64 maximum value. -/
def i64Max : Int := 9223372036854775807

/-- Does the list start with the two characters P, M?  Used to model
substring search for the uppercase meridiem marker. -/
def startsPM (l : List Char) : Bool :=
  match l with
  | c1 :: c2 :: _ => c1 == 'P' && c2 == 'M'
  | _ => false

/-- Model of Rust str::contains of the pattern PM: true iff the two-character
sequence P, M occurs somewhere in the list. -/
def containsPM : List Char → Bool
  | [] => false
  | c :: cs => startsPM (c :: cs) || containsPM cs

/-- Accumulating decimal-digit loop of integer parsing: consumes the rest of
the characters, failing on the first non-digit. -/
def digitsVal (acc : Nat) : List Char → Option Nat
  | [] => some acc
  | c :: cs => if c.isDigit then digitsVal (10 * acc + (c.toNat - 48)) cs else none

/-- Parse a non-empty all-digit character list as a natural number
(empty input fails, as in Rust integer parsing). -/
def parseDigits : List Char → Option Nat
  | [] => none
  | c :: cs => digitsVal 0 (c :: cs)

/-- Model of Rust str::parse::<i64>: optional leading + or - sign, then one
or more ASCII decimal digits, with an i64 range check; anything else fails. -/
def parseI64 (s : List Char) : Option Int :=
  match s with
  | [] => none
  | c :: cs =>
    let v : Option Int :=
      if c = '+' then (parseDigits cs).map (fun n => (n : Int))
      else if c = '-' then (parseDigits cs).map (fun n => -(n : Int))
      else (parseDigits (c :: cs)).map (fun n => (n : Int))
    match v with
    | none => none
    | some x => if i64Min ≤ x ∧ x ≤ i64Max then some x else none

/-- Fuel-driven decimal rendering of a natural number, most significant digit
first (fuel at least the number of digits; structural so it computes). -/
def natToCharsAux : Nat → Nat → List Char → List Char
  | 0, _, acc => acc
  | fuel + 1, n, acc =>
    if n < 10 then Char.ofNat (48 + n) :: acc
    else natToCharsAux fuel (n / 10) (Char.ofNat (48 + n % 10) :: acc)

/-- Decimal digit string of a natural number (model of Rust u64 Display). -/
def natToChars (n : Nat) : List Char := natToCharsAux (n + 1) n []

/-- Decimal rendering of an integer (model of Rust i64 Display): a minus sign
followed by the digits of the absolute value when negative. -/
def intToChars (i : Int) : List Char :=
  if i < 0 then '-' :: natToChars i.natAbs else natToChars i.natAbs

/-- Model of the Rust format specifier {:02} on an i64: pad with a leading
zero exactly when the rendering would be a single character. -/
def padZero2 (n : Int) : List Char :=
  if 0 ≤ n ∧ n < 10 then '0' :: intToChars n else intToChars n

/-- Split a character list on a separator character; like Rust str::split,
the result always has at least one (possibly empty) piece. -/
def splitOnChar (sep : Char) : List Char → List (List Char)
  | [] => [[]]
  | c :: cs =>
    match splitOnChar sep cs with
    | [] => [[]]
    | f :: rest => if c == sep then [] :: f :: rest else (c :: f) :: rest

/-- The portion of the input before the first space, split on colons, with
the i-th piece (empty when missing).  Models the iterator chain
time.split(space).next().unwrap_or(empty).split(colon) followed by the i-th
next().unwrap_or(empty) in Watch::str_to_secs. -/
def nthField (time : List Char) (i : Nat) : List Char :=
  (splitOnChar ':' (time.takeWhile (fun c => c != ' '))).getD i []

/-- PM-marker detection in Watch::str_to_secs: remove every period, uppercase
(ASCII case mapping), and search the whole string for the substring PM. -/
def pm_marker (time : List Char) : Bool :=
  containsPM ((time.filter (fun c => c != '.')).map Char.toUpper)

/-- The Watch struct of src/src/lib.rs: start time, offset and meridiem flag. -/
structure Watch where
  start : Int
  offset : Int
  meridiem : Bool
deriving DecidableEq, Repr

namespace Watch

/-- Watch::str_to_secs: take a time string and return the number of seconds.
PM detection looks at the whole input; fields are the colon-separated pieces
before the first space; a field that fails to parse as an i64 becomes 0;
when the PM marker is honored, 12 is added to the hours field. -/
def str_to_secs (time : List Char) (is_time_span : Bool) : Int :=
  let pm := pm_marker time && is_time_span
  let hours := (parseI64 (nthField time 0)).getD 0
  let minutes := (parseI64 (nthField time 1)).getD 0
  let seconds := (parseI64 (nthField time 2)).getD 0
  let hours := if pm then hours + 12 else hours
  hours * 3600 + minutes * 60 + seconds

/-- Watch::new: parse the given time with the flag set to true, take it as
the start; offset comes from Default (0). -/
def new (time : List Char) (meridiem : Bool) : Watch :=
  { start := str_to_secs time true, offset := 0, meridiem := meridiem }

/-- Watch::secs_to_mil: render seconds in HH:MM:SS 24-hour format
(Rust / and % on i64 truncate toward zero: tdiv and tmod). -/
def secs_to_mil (secs : Int) : List Char :=
  let hours := (secs.tdiv 3600).tmod 24
  let minutes := (secs.tmod 3600).tdiv 60
  let seconds := secs.tmod 60
  padZero2 hours ++ ':' :: padZero2 minutes ++ ':' :: padZero2 seconds

/-- Watch::secs_to_mer: render seconds in 12-hour format with an AM or PM
marker; hours at least 12 are reduced mod 12 and marked PM, and a resulting
hour of 0 is displayed as 12. -/
def secs_to_mer (secs : Int) : List Char :=
  let hours := (secs.tdiv 3600).tmod 24
  let minutes := (secs.tmod 3600).tdiv 60
  let seconds := secs.tmod 60
  let mer := if 12 ≤ hours then ['P', 'M'] else ['A', 'M']
  let hours := if 12 ≤ hours then hours.tmod 12 else hours
  let hours := if hours = 0 then 12 else hours
  padZero2 hours ++ ':' :: padZero2 minutes ++ ':' :: padZero2 seconds ++ ' ' :: mer

/-- Watch::diff_to_days: whole days in the difference (truncating division),
rendered as a plus or minus suffix, empty when zero days. -/
def diff_to_days (diff : Int) : List Char :=
  let days := diff.tdiv 86400
  if 0 < days then
    ' ' :: '+' :: intToChars days ++ [' ', 'd', 'a', 'y', 's']
  else if days < 0 then
    ' ' :: '-' :: natToChars days.natAbs ++ [' ', 'd', 'a', 'y', 's']
  else []

/-- Watch::add_offset: the raw end time start + offset. -/
def add_offset (w : Watch) : Int := w.start + w.offset

/-- Watch::change_meridiem: set the display flag. -/
def change_meridiem (w : Watch) (meridiem : Bool) : Watch :=
  { w with meridiem := meridiem }

/-- impl Add of i64 for Watch: a new Watch with the offset increased. -/
def add_i64 (w : Watch) (rhs : Int) : Watch :=
  { w with offset := w.offset + rhs }

/-- impl Sub of i64 for Watch: a new Watch with the offset decreased. -/
def sub_i64 (w : Watch) (rhs : Int) : Watch :=
  { w with offset := w.offset - rhs }

/-- impl Add of a string slice for Watch: parse the string as a time span
(flag false) and add the seconds. -/
def add_str (w : Watch) (rhs : List Char) : Watch :=
  add_i64 w (str_to_secs rhs false)

/-- impl Sub of a string slice for Watch: parse the string as a time span
(flag false) and subtract the seconds. -/
def sub_str (w : Watch) (rhs : List Char) : Watch :=
  sub_i64 w (str_to_secs rhs false)

/-- Generic AddAssign for Watch (self becomes self + other), at i64. -/
def add_assign_i64 (w : Watch) (rhs : Int) : Watch := add_i64 w rhs

/-- Generic SubAssign for Watch (self becomes self - other), at i64. -/
def sub_assign_i64 (w : Watch) (rhs : Int) : Watch := sub_i64 w rhs

/-- Generic AddAssign for Watch (self becomes self + other), at strings. -/
def add_assign_str (w : Watch) (rhs : List Char) : Watch := add_str w rhs

/-- Generic SubAssign for Watch (self becomes self - other), at strings. -/
def sub_assign_str (w : Watch) (rhs : List Char) : Watch := sub_str w rhs

/-- impl fmt::Display for Watch: normalize the raw end time with two
truncating mod operations, take the difference against the raw end, pick the
formatter by the meridiem flag and append the day suffix directly. -/
def display (w : Watch) : List Char :=
  let e := ((w.add_offset).tmod 86400 + 86400).tmod 86400
  let diff := w.offset + w.start - e
  let end_str := if w.meridiem then secs_to_mer e else secs_to_mil e
  let diff_str := diff_to_days diff
  end_str ++ diff_str

end Watch

/-! Helper lemmas shared by the claim theorems. -/

/-- The ten ASCII digit characters: exactly the characters padZero2 can emit
for a two-digit nonnegative value. -/
def digitChars : List Char := ['0', '1', '2', '3', '4', '5', '6', '7', '8', '9']

lemma tmod_day_lb (x : Int) : -86400 < x.tmod 86400 := by
  rcases le_or_lt 0 x with hx | hx
  · have := Int.tmod_nonneg 86400 hx
    omega
  · have h1 : (-x).tmod 86400 < 86400 := Int.tmod_lt_of_pos (-x) (by norm_num)
    have h2 : (-x).tmod 86400 = -(x.tmod 86400) := by
      rw [Int.tmod_def, Int.tmod_def, Int.neg_tdiv]
      ring
    omega

lemma norm_tmod_eq_emod (x : Int) : (x.tmod 86400 + 86400).tmod 86400 = x % 86400 := by
  have hub : x.tmod 86400 < 86400 := Int.tmod_lt_of_pos x (by norm_num)
  have hlb := tmod_day_lb x
  have hdef : x.tmod 86400 = x - 86400 * x.tdiv 86400 := Int.tmod_def x 86400
  rw [Int.tmod_eq_emod (by omega) (by norm_num)]
  omega

lemma takeWhile_eq_self {α : Type} (p : α → Bool) (l : List α)
    (h : ∀ c ∈ l, p c = true) : l.takeWhile p = l := by
  induction l with
  | nil => rfl
  | cons c cs ih =>
    simp [List.takeWhile_cons, h c (by simp), ih (fun d hd => h d (by simp [hd]))]

lemma splitOnChar_ne_nil (sep : Char) (l : List Char) : splitOnChar sep l ≠ [] := by
  cases l with
  | nil => simp [splitOnChar]
  | cons c cs =>
    simp only [splitOnChar]
    split
    · simp
    · split <;> simp

lemma splitOnChar_no_sep (sep : Char) (a : List Char) (h : ∀ c ∈ a, c ≠ sep) :
    splitOnChar sep a = [a] := by
  induction a with
  | nil => rfl
  | cons c cs ih =>
    have hcs := ih (fun d hd => h d (List.mem_cons_of_mem _ hd))
    have hc : (c == sep) = false := beq_eq_false_iff_ne.mpr (h c (List.mem_cons_self _ _))
    simp only [splitOnChar, hcs, hc]
    simp

lemma splitOnChar_append (sep : Char) (a b : List Char) (h : ∀ c ∈ a, c ≠ sep) :
    splitOnChar sep (a ++ sep :: b) = a :: splitOnChar sep b := by
  induction a with
  | nil =>
    simp only [List.nil_append, splitOnChar]
    rcases hsb : splitOnChar sep b with _ | ⟨f, rest⟩
    · exact absurd hsb (splitOnChar_ne_nil sep b)
    · simp
  | cons c cs ih =>
    have hcs := ih (fun d hd => h d (by simp [hd]))
    have hc : (c == sep) = false := beq_eq_false_iff_ne.mpr (h c (by simp))
    simp only [List.cons_append, splitOnChar, hc, List.append_eq]
    rw [hcs]
    simp

lemma containsPM_append (a b : List Char) : containsPM (a ++ 'P' :: 'M' :: b) = true := by
  induction a with
  | nil => simp [containsPM, startsPM]
  | cons c cs ih => simp [containsPM, ih]

lemma containsPM_eq_false (l : List Char) (h : ∀ c ∈ l, c ≠ 'P') : containsPM l = false := by
  induction l with
  | nil => rfl
  | cons c cs ih =>
    have hc : (c == 'P') = false := beq_eq_false_iff_ne.mpr (h c (by simp))
    have hs : startsPM (c :: cs) = false := by
      cases cs <;> simp [startsPM, hc]
    simp [containsPM, hs, ih (fun d hd => h d (by simp [hd]))]

lemma pm_marker_eq_false (t : List Char)
    (h : ∀ c ∈ t, Char.toUpper c = c ∧ c ≠ 'P') : pm_marker t = false := by
  apply containsPM_eq_false
  intro c hc
  rcases List.mem_map.mp hc with ⟨d, hd, rfl⟩
  have hd2 : d ∈ t := (List.mem_filter.mp hd).1
  rw [(h d hd2).1]
  exact (h d hd2).2

lemma padZero2_digits : ∀ n : Fin 100, ∀ c ∈ padZero2 ((n.val : Int)), c ∈ digitChars := by
  decide

lemma parseI64_padZero2 :
    ∀ n : Fin 100, parseI64 (padZero2 ((n.val : Int))) = some ((n.val : Int)) := by
  decide

lemma padZero2_digits_int (n : Int) (h0 : 0 ≤ n) (h1 : n ≤ 99) :
    ∀ c ∈ padZero2 n, c ∈ digitChars := by
  have h2 : n.toNat < 100 := by omega
  have h3 : ((n.toNat : Nat) : Int) = n := by omega
  have := padZero2_digits ⟨n.toNat, h2⟩
  rw [← h3]
  exact this

lemma parseI64_padZero2_int (n : Int) (h0 : 0 ≤ n) (h1 : n ≤ 99) :
    parseI64 (padZero2 n) = some n := by
  have h2 : n.toNat < 100 := by omega
  have h3 : ((n.toNat : Nat) : Int) = n := by omega
  have := parseI64_padZero2 ⟨n.toNat, h2⟩
  rw [← h3]
  exact this

lemma digitChars_props : ∀ c ∈ digitChars,
    Char.toUpper c = c ∧ c ≠ 'P' ∧ c ≠ ':' ∧ (c != ' ') = true := by
  decide

/-! Claim theorems. -/

/-- C1: Rendering a Watch computes the raw end time start + offset,
normalizes it into the interval from 0 inclusive to 86400 exclusive with
floor-style modulo (a raw end of -5 seconds wraps to 86395, displayed
23:59:55 the previous day), takes the day-difference to be
(offset + start) - normalized end, and outputs the time-of-day string chosen
by the meridiem flag followed directly by the day-difference suffix. -/
theorem watch_display_spec (w : Watch) :
    0 ≤ (w.start + w.offset) % 86400 ∧
    (w.start + w.offset) % 86400 < 86400 ∧
    Watch.display w =
      (if w.meridiem then Watch.secs_to_mer ((w.start + w.offset) % 86400)
       else Watch.secs_to_mil ((w.start + w.offset) % 86400)) ++
        Watch.diff_to_days (w.offset + w.start - (w.start + w.offset) % 86400) ∧
    Watch.add_offset { start := 0, offset := -5, meridiem := false } = -5 ∧
    Watch.display { start := 0, offset := -5, meridiem := false } =
      ['2', '3', ':', '5', '9', ':', '5', '5', ' ', '-', '1', ' ', 'd', 'a', 'y', 's'] := by
  refine ⟨Int.emod_nonneg _ (by norm_num), Int.emod_lt_of_pos _ (by norm_num), ?_, by decide, by decide⟩
  simp only [Watch.display, Watch.add_offset, norm_tmod_eq_emod]

/-- C3: A PM marker adds 12 hours exactly when the caller flags the string
as an absolute clock time: Watch::new parses with the flag true (honoring
PM), while the string Add and Sub operators parse with the flag false, so a
PM marker contributes 43200 seconds under the true flag and nothing under
the false flag. -/
theorem watch_pm_flag (t : List Char) (m : Bool) (w : Watch) :
    Watch.new t m = { start := Watch.str_to_secs t true, offset := 0, meridiem := m } ∧
    Watch.add_str w t = Watch.add_i64 w (Watch.str_to_secs t false) ∧
    Watch.sub_str w t = Watch.sub_i64 w (Watch.str_to_secs t false) ∧
    Watch.str_to_secs t true =
      Watch.str_to_secs t false + (if pm_marker t then 43200 else 0) := by
  refine ⟨rfl, rfl, rfl, ?_⟩
  simp only [Watch.str_to_secs]
  cases hpm : pm_marker t <;> simp [hpm] <;> ring

/-- C6: Adding an operand (integer seconds or a duration string) and then
subtracting the same operand returns the watch, and hence its display
string, to exactly its previous value. -/
theorem watch_add_sub_cancel (w : Watch) (n : Int) (t : List Char) :
    Watch.sub_i64 (Watch.add_i64 w n) n = w ∧
    Watch.sub_str (Watch.add_str w t) t = w ∧
    Watch.display (Watch.sub_assign_i64 (Watch.add_assign_i64 w n) n) = Watch.display w ∧
    Watch.display (Watch.sub_assign_str (Watch.add_assign_str w t) t) = Watch.display w := by
  have h1 : Watch.sub_i64 (Watch.add_i64 w n) n = w := by
    cases w
    simp [Watch.add_i64, Watch.sub_i64]
  have h2 : Watch.sub_str (Watch.add_str w t) t = w := by
    cases w
    simp [Watch.add_str, Watch.sub_str, Watch.add_i64, Watch.sub_i64]
  exact ⟨h1, h2, by rw [Watch.sub_assign_i64, Watch.add_assign_i64, h1],
    by rw [Watch.sub_assign_str, Watch.add_assign_str, h2]⟩

/-- C7: The four arithmetic operators and their compound-assignment forms
change only the offset field: start and the meridiem flag are untouched, and
the offset moves by exactly the operand (the parsed seconds for strings). -/
theorem watch_arith_frame (w : Watch) (n : Int) (t : List Char) :
    (Watch.add_i64 w n).start = w.start ∧ (Watch.add_i64 w n).meridiem = w.meridiem ∧
    (Watch.add_i64 w n).offset = w.offset + n ∧
    (Watch.sub_i64 w n).start = w.start ∧ (Watch.sub_i64 w n).meridiem = w.meridiem ∧
    (Watch.sub_i64 w n).offset = w.offset - n ∧
    (Watch.add_str w t).start = w.start ∧ (Watch.add_str w t).meridiem = w.meridiem ∧
    (Watch.add_str w t).offset = w.offset + Watch.str_to_secs t false ∧
    (Watch.sub_str w t).start = w.start ∧ (Watch.sub_str w t).meridiem = w.meridiem ∧
    (Watch.sub_str w t).offset = w.offset - Watch.str_to_secs t false ∧
    Watch.add_assign_i64 w n = Watch.add_i64 w n ∧
    Watch.sub_assign_i64 w n = Watch.sub_i64 w n ∧
    Watch.add_assign_str w t = Watch.add_str w t ∧
    Watch.sub_assign_str w t = Watch.sub_str w t :=
  ⟨rfl, rfl, rfl, rfl, rfl, rfl, rfl, rfl, rfl, rfl, rfl, rfl, rfl, rfl, rfl, rfl⟩

/-- C8: The day-difference annotator computes days as diff divided by 86400
with truncating integer division and renders a plus suffix for positive
days, a minus suffix with the absolute value for negative days, and the
empty string for zero days; the suffix sign matches the sign of the day
count and zero days yields no suffix. -/
theorem watch_day_suffix (d : Int) :
    Watch.diff_to_days d =
      (if 0 < d.tdiv 86400 then
        ' ' :: '+' :: intToChars (d.tdiv 86400) ++ [' ', 'd', 'a', 'y', 's']
       else if d.tdiv 86400 < 0 then
        ' ' :: '-' :: natToChars (d.tdiv 86400).natAbs ++ [' ', 'd', 'a', 'y', 's']
       else []) ∧
    (Watch.diff_to_days d = [] ↔ d.tdiv 86400 = 0) ∧
    ((Watch.diff_to_days d).take 2 = [' ', '+'] ↔ 0 < d.tdiv 86400) ∧
    ((Watch.diff_to_days d).take 2 = [' ', '-'] ↔ d.tdiv 86400 < 0) := by
  rcases lt_trichotomy (d.tdiv 86400) 0 with hd | hd | hd
  · have hv : Watch.diff_to_days d =
        ' ' :: '-' :: natToChars (d.tdiv 86400).natAbs ++ [' ', 'd', 'a', 'y', 's'] := by
      simp only [Watch.diff_to_days]
      rw [if_neg (by omega), if_pos hd]
    refine ⟨?_, ?_, ?_, ?_⟩
    · rw [hv, if_neg (by omega), if_pos hd]
    · exact ⟨fun h => absurd h (by rw [hv]; exact List.cons_ne_nil _ _),
        fun h0 => absurd h0 (by omega)⟩
    · exact ⟨fun h => by rw [hv] at h; simp at h, fun h => absurd h (by omega)⟩
    · exact ⟨fun _ => hd, fun _ => by rw [hv]; rfl⟩
  · have hv : Watch.diff_to_days d = [] := by
      simp only [Watch.diff_to_days]
      rw [if_neg (by omega), if_neg (by omega)]
    refine ⟨?_, ?_, ?_, ?_⟩
    · rw [hv, if_neg (by omega), if_neg (by omega)]
    · exact ⟨fun _ => hd, fun _ => hv⟩
    · exact ⟨fun h => by rw [hv] at h; simp at h, fun h => absurd h (by omega)⟩
    · exact ⟨fun h => by rw [hv] at h; simp at h, fun h => absurd h (by omega)⟩
  · have hv : Watch.diff_to_days d =
        ' ' :: '+' :: intToChars (d.tdiv 86400) ++ [' ', 'd', 'a', 'y', 's'] := by
      simp only [Watch.diff_to_days]
      rw [if_pos hd]
    refine ⟨?_, ?_, ?_, ?_⟩
    · rw [hv, if_pos hd]
    · exact ⟨fun h => absurd h (by rw [hv]; exact List.cons_ne_nil _ _),
        fun h0 => absurd h0 (by omega)⟩
    · exact ⟨fun _ => hd, fun _ => by rw [hv]; rfl⟩
    · exact ⟨fun h => by rw [hv] at h; simp at h, fun h => absurd h (by omega)⟩

/-- C10: PM detection is a case-insensitive substring search over the whole
input with periods removed, not a check at the marker position: any
occurrence of pm anywhere sets the flag, and in particular the input
1PM:00 parsed as an absolute time yields 43200 seconds even though its hour
field 1PM fails to parse and defaults to 0. -/
theorem watch_pm_substring_detection :
    Watch.str_to_secs ['1', 'P', 'M', ':', '0', '0'] true = 43200 ∧
    parseI64 ['1', 'P', 'M'] = none ∧
    pm_marker ['1', 'P', 'M', ':', '0', '0'] = true ∧
    (∀ l r : List Char, pm_marker (l ++ 'p' :: 'm' :: r) = true) ∧
    (∀ l r : List Char, pm_marker (l ++ 'P' :: 'M' :: r) = true) := by
  refine ⟨by decide, by decide, by decide, ?_, ?_⟩ <;>
    intro l r <;>
      simp only [pm_marker, List.filter_append, List.filter_cons, List.map_append,
        List.map_cons] <;>
      norm_num <;>
      exact containsPM_append _ _

/-- C2: The time-string parser splits the portion before the first space on
colons, parses fields 0, 1, 2 as hours, minutes, seconds, substitutes 0 for
any field that fails to parse as an integer, and returns
hours*3600 + minutes*60 + seconds (hours getting 12 more when the honored PM
marker applies); it performs no range validation, so an hours field of at
least 24 (with nonnegative minutes and seconds) yields at least one full day
of seconds. -/
theorem watch_parser_fields (t : List Char) (b : Bool) :
    Watch.str_to_secs t b =
      (if pm_marker t && b then
          (parseI64 ((splitOnChar ':' (t.takeWhile (fun c => c != ' '))).getD 0 [])).getD 0 + 12
        else
          (parseI64 ((splitOnChar ':' (t.takeWhile (fun c => c != ' '))).getD 0 [])).getD 0) * 3600
        + (parseI64 ((splitOnChar ':' (t.takeWhile (fun c => c != ' '))).getD 1 [])).getD 0 * 60
        + (parseI64 ((splitOnChar ':' (t.takeWhile (fun c => c != ' '))).getD 2 [])).getD 0 ∧
    (∀ u : List Char,
        24 ≤ (parseI64 (nthField u 0)).getD 0 →
        0 ≤ (parseI64 (nthField u 1)).getD 0 →
        0 ≤ (parseI64 (nthField u 2)).getD 0 →
        86400 ≤ Watch.str_to_secs u false) := by
  constructor
  · rfl
  · intro u h1 h2 h3
    have hval : Watch.str_to_secs u false =
        (parseI64 (nthField u 0)).getD 0 * 3600 + (parseI64 (nthField u 1)).getD 0 * 60 +
          (parseI64 (nthField u 2)).getD 0 := by
      simp [Watch.str_to_secs]
    rw [hval]
    omega

/-- Witness for C2 at the concrete input 25:00:00, whose hours field 25 is
out of clock range and yields 90000 seconds, at least a full day. -/
theorem watch_parser_fields_witness :
    86400 ≤ Watch.str_to_secs ['2', '5', ':', '0', '0', ':', '0', '0'] false :=
  (watch_parser_fields [] false).2 ['2', '5', ':', '0', '0', ':', '0', '0']
    (by decide) (by decide) (by decide)

/-- C4: For seconds in a single day, the 12-hour formatter decomposes into
hours (quotient by 3600, mod 24), minutes and seconds, marks PM and lowers
the hour by 12 when the hour is at least 12, otherwise marks AM, and
displays a resulting hour of 0 as 12; hour 0 renders as 12 AM, hour 12 as
12 PM, and hour 13 as 01 PM. -/
theorem watch_mer_format (s : Int) (h0 : 0 ≤ s) (h1 : s < 86400) :
    Watch.secs_to_mer s =
      padZero2 (if (if 12 ≤ s / 3600 % 24 then s / 3600 % 24 - 12 else s / 3600 % 24) = 0 then 12
                else if 12 ≤ s / 3600 % 24 then s / 3600 % 24 - 12 else s / 3600 % 24) ++
        ':' :: padZero2 (s % 3600 / 60) ++ ':' :: padZero2 (s % 60) ++
        ' ' :: (if 12 ≤ s / 3600 % 24 then ['P', 'M'] else ['A', 'M']) ∧
    Watch.secs_to_mer 0 = ['1', '2', ':', '0', '0', ':', '0', '0', ' ', 'A', 'M'] ∧
    Watch.secs_to_mer 43200 = ['1', '2', ':', '0', '0', ':', '0', '0', ' ', 'P', 'M'] ∧
    Watch.secs_to_mer 46800 = ['0', '1', ':', '0', '0', ':', '0', '0', ' ', 'P', 'M'] := by
  refine ⟨?_, by decide, by decide, by decide⟩
  have hdv : s.tdiv 3600 = s / 3600 := Int.tdiv_eq_ediv h0 (by norm_num)
  have hm1 : s.tmod 3600 = s % 3600 := Int.tmod_eq_emod h0 (by norm_num)
  have hm2 : s.tmod 60 = s % 60 := Int.tmod_eq_emod h0 (by norm_num)
  have hdnn : 0 ≤ s / 3600 := Int.ediv_nonneg h0 (by norm_num)
  have hm3 : (s / 3600).tmod 24 = s / 3600 % 24 := Int.tmod_eq_emod hdnn (by norm_num)
  have hm4 : (s % 3600).tdiv 60 = s % 3600 / 60 :=
    Int.tdiv_eq_ediv (Int.emod_nonneg s (by norm_num)) (by norm_num)
  simp only [Watch.secs_to_mer, hdv, hm1, hm2, hm3, hm4]
  by_cases h12 : 12 ≤ s / 3600 % 24
  · have hq : (s / 3600 % 24).tmod 12 = s / 3600 % 24 - 12 := by
      rw [Int.tmod_eq_emod (by omega) (by norm_num)]
      omega
    simp [h12, hq]
  · simp [h12]

/-- Witness for C4 at one hour past midnight: 3600 seconds renders as
01:00:00 AM. -/
theorem watch_mer_format_witness :
    Watch.secs_to_mer 3600 = ['0', '1', ':', '0', '0', ':', '0', '0', ' ', 'A', 'M'] := by
  have hthm := watch_mer_format 3600 (by decide) (by decide)
  rw [hthm.1]
  decide

/-- C9: No public operation fails: parsing, construction, arithmetic and
rendering are total functions returning plain values (no error type in any
interface); a field that fails to parse contributes 0, and an input all of
whose fields are malformed contributes nothing beyond the possible honored
PM marker. -/
theorem watch_total_no_failure :
    (∀ t : List Char, ∀ b : Bool, ∃ n : Int, Watch.str_to_secs t b = n) ∧
    (∀ t : List Char, ∀ m : Bool, ∃ w : Watch, Watch.new t m = w) ∧
    (∀ w : Watch, ∀ n : Int,
        ∃ w2 : Watch, Watch.add_i64 w n = w2 ∧ ∃ w3 : Watch, Watch.sub_i64 w n = w3) ∧
    (∀ w : Watch, ∃ out : List Char, Watch.display w = out) ∧
    (∀ f : List Char, parseI64 f = none → (parseI64 f).getD 0 = 0) ∧
    (∀ t : List Char, ∀ b : Bool,
        parseI64 (nthField t 0) = none → parseI64 (nthField t 1) = none →
        parseI64 (nthField t 2) = none →
        Watch.str_to_secs t b = if pm_marker t && b then 43200 else 0) := by
  refine ⟨fun t b => ⟨_, rfl⟩, fun t m => ⟨_, rfl⟩, fun w n => ⟨_, rfl, _, rfl⟩,
    fun w => ⟨_, rfl⟩, fun f hf => by rw [hf]; rfl, ?_⟩
  intro t b h1 h2 h3
  simp only [Watch.str_to_secs, h1, h2, h3, Option.getD_none]
  cases hpm : pm_marker t && b <;> simp

/-- Witness for C9: a fully malformed input parses to 0 seconds, and its
failing field defaults to 0. -/
theorem watch_total_no_failure_witness :
    Watch.str_to_secs ['g', 'a', 'r', 'b', 'a', 'g', 'e'] false = 0 ∧
    (parseI64 ['g', 'a', 'r', 'b', 'a', 'g', 'e']).getD 0 = 0 := by
  constructor
  · have hz := watch_total_no_failure.2.2.2.2.2 ['g', 'a', 'r', 'b', 'a', 'g', 'e'] false
      (by decide) (by decide) (by decide)
    rw [hz]
    decide
  · exact watch_total_no_failure.2.2.2.2.1 ['g', 'a', 'r', 'b', 'a', 'g', 'e'] (by decide)

/-- C5: Constructing a Watch from a zero-padded 24-hour string HH:MM:SS with
hour at most 23 and minutes and seconds at most 59, then rendering it in
24-hour mode, reproduces exactly the same zero-padded string with no day
suffix. -/
theorem watch_roundtrip_24h (h m s : Int)
    (hh0 : 0 ≤ h) (hh1 : h ≤ 23) (hm0 : 0 ≤ m) (hm1 : m ≤ 59) (hs0 : 0 ≤ s) (hs1 : s ≤ 59) :
    Watch.display (Watch.new (padZero2 h ++ ':' :: (padZero2 m ++ ':' :: padZero2 s)) false) =
      padZero2 h ++ ':' :: (padZero2 m ++ ':' :: padZero2 s) := by
  have hda : ∀ c ∈ padZero2 h, c ∈ digitChars := padZero2_digits_int h hh0 (by omega)
  have hdb : ∀ c ∈ padZero2 m, c ∈ digitChars := padZero2_digits_int m hm0 (by omega)
  have hdc : ∀ c ∈ padZero2 s, c ∈ digitChars := padZero2_digits_int s hs0 (by omega)
  have hmem : ∀ c ∈ padZero2 h ++ ':' :: (padZero2 m ++ ':' :: padZero2 s),
      c ∈ digitChars ∨ c = ':' := by
    intro c hc
    simp only [List.mem_append, List.mem_cons] at hc
    rcases hc with hc | hc | hc | hc | hc
    · exact Or.inl (hda c hc)
    · exact Or.inr hc
    · exact Or.inl (hdb c hc)
    · exact Or.inr hc
    · exact Or.inl (hdc c hc)
  have htw : (padZero2 h ++ ':' :: (padZero2 m ++ ':' :: padZero2 s)).takeWhile
        (fun c => c != ' ')
      = padZero2 h ++ ':' :: (padZero2 m ++ ':' :: padZero2 s) := by
    apply takeWhile_eq_self
    intro c hc
    rcases hmem c hc with hd | rfl
    · exact (digitChars_props c hd).2.2.2
    · decide
  have hsp1 : splitOnChar ':' (padZero2 h ++ ':' :: (padZero2 m ++ ':' :: padZero2 s))
      = padZero2 h :: splitOnChar ':' (padZero2 m ++ ':' :: padZero2 s) :=
    splitOnChar_append ':' _ _ (fun c hc => (digitChars_props c (hda c hc)).2.2.1)
  have hsp2 : splitOnChar ':' (padZero2 m ++ ':' :: padZero2 s)
      = padZero2 m :: splitOnChar ':' (padZero2 s) :=
    splitOnChar_append ':' _ _ (fun c hc => (digitChars_props c (hdb c hc)).2.2.1)
  have hsp3 : splitOnChar ':' (padZero2 s) = [padZero2 s] :=
    splitOnChar_no_sep ':' _ (fun c hc => (digitChars_props c (hdc c hc)).2.2.1)
  have hpm : pm_marker (padZero2 h ++ ':' :: (padZero2 m ++ ':' :: padZero2 s)) = false := by
    apply pm_marker_eq_false
    intro c hc
    rcases hmem c hc with hd | rfl
    · exact ⟨(digitChars_props c hd).1, (digitChars_props c hd).2.1⟩
    · exact ⟨by decide, by decide⟩
  have hp1 : parseI64 (padZero2 h) = some h := parseI64_padZero2_int h hh0 (by omega)
  have hp2 : parseI64 (padZero2 m) = some m := parseI64_padZero2_int m hm0 (by omega)
  have hp3 : parseI64 (padZero2 s) = some s := parseI64_padZero2_int s hs0 (by omega)
  have hsecs : Watch.str_to_secs (padZero2 h ++ ':' :: (padZero2 m ++ ':' :: padZero2 s)) true
      = h * 3600 + m * 60 + s := by
    simp only [Watch.str_to_secs, nthField, htw, hsp1, hsp2, hsp3, hpm, Bool.false_and,
      List.getD_cons_zero, List.getD_cons_succ, hp1, hp2, hp3, Option.getD_some]
    simp
  have hT0 : 0 ≤ h * 3600 + m * 60 + s := by omega
  have hT1 : h * 3600 + m * 60 + s < 86400 := by omega
  have hwatch : Watch.new (padZero2 h ++ ':' :: (padZero2 m ++ ':' :: padZero2 s)) false
      = { start := h * 3600 + m * 60 + s, offset := 0, meridiem := false } := by
    simp only [Watch.new, hsecs]
  rw [hwatch]
  simp only [Watch.display, Watch.add_offset, add_zero]
  rw [norm_tmod_eq_emod, Int.emod_eq_of_lt hT0 hT1]
  rw [show (0 : Int) + (h * 3600 + m * 60 + s) - (h * 3600 + m * 60 + s) = 0 by ring]
  have hdd : Watch.diff_to_days 0 = [] := by decide
  rw [hdd, List.append_nil]
  have e1 : (h * 3600 + m * 60 + s).tdiv 3600 = h := by
    rw [Int.tdiv_eq_ediv hT0 (by norm_num)]
    omega
  have e2 : h.tmod 24 = h := Int.tmod_eq_of_lt hh0 (by omega)
  have e3 : (h * 3600 + m * 60 + s).tmod 3600 = m * 60 + s := by
    rw [Int.tmod_eq_emod hT0 (by norm_num)]
    omega
  have e4 : (m * 60 + s).tdiv 60 = m := by
    rw [Int.tdiv_eq_ediv (by omega) (by norm_num)]
    omega
  have e5 : (h * 3600 + m * 60 + s).tmod 60 = s := by
    rw [Int.tmod_eq_emod hT0 (by norm_num)]
    omega
  simp only [Bool.false_eq_true, if_false, Watch.secs_to_mil, e1, e2, e3, e4, e5]
  simp

/-- Witness for C5 at the concrete clock time 13:33:23. -/
theorem watch_roundtrip_24h_witness :
    Watch.display (Watch.new (padZero2 13 ++ ':' :: (padZero2 33 ++ ':' :: padZero2 23)) false)
      = padZero2 13 ++ ':' :: (padZero2 33 ++ ':' :: padZero2 23) :=
  watch_roundtrip_24h 13 33 23 (by decide) (by decide) (by decide) (by decide) (by decide)
    (by decide)
